import Mathlib

/-!
Verification development for the `secretmangle` repository: a byte-level
XOR masking engine (`xor_chunks` / `xor_chunks_intrinsic_baseline`), two
masked heap cells (`MangledBoxArbitrary` in src/arbitrary.rs and
`MangledBox` in src/nouninit.rs), and a masked optional container
(`MangledOption` in src/option.rs).

The embedding is shallow: raw byte regions become functions from byte
offsets / addresses to byte values, the assembly / volatile byte loops
become an index recursion performing the same per-byte load-xor-store in
the same order, and the effectful cell operations become pure state
transformers that additionally report a trace of the observable events
(heap allocation for `T`, random-source calls, runs of the caller's
in-place constructor, and runs of `T`'s destructor).  Randomness is passed
in as an explicit argument (the bytes the random source would produce);
a failing random source aborts the program in the code, so success is the
only modelled path.
-/

/-- Byte memory: a map from addresses (or byte offsets within a region)
to byte values.  Regions of the Rust code become their base address here;
byte values are naturals (the operations only combine them with XOR, which
preserves any byte bound). -/
def Mem : Type := Nat → Nat

/-- Model of the byte-indexed load-xor-store loop of
`xor_chunks_intrinsic_baseline` (src/src/arbitrary/xor_intrinsic.rs, both
the x86_64 and the aarch64 assembly loop) applied with size `N` to the
region at `data` keyed by the region at `key`.  Iteration `i` reads the
byte at `key + i` and the byte at `data + i` from the current memory and
stores their XOR at `data + i`, for `i = 0, 1, ..., N-1` in that order;
the recursion below peels off the final iteration `i = n`.  The volatile
byte loop of `xor_chunks` in src/src/nouninit.rs performs exactly the same
sequence of byte reads and writes, so this single definition models both
implementations of the mask primitive. -/
def xor_chunks_intrinsic_baseline : Nat → Nat → Nat → Mem → Mem
  | 0, _, _, m => m
  | n + 1, data, key, m => fun a =>
      if a = data + n then
        xor_chunks_intrinsic_baseline n data key m (data + n) ^^^
          xor_chunks_intrinsic_baseline n data key m (key + n)
      else
        xor_chunks_intrinsic_baseline n data key m a

/-- Model of `xor_chunks` (src/src/arbitrary.rs lines 20-25, and the
identically-behaving volatile loop of src/src/nouninit.rs lines 22-31):
the byte loop followed by a SeqCst fence.  The fence is a compiler and
processor ordering directive with no effect on memory contents, so in the
memory model the function coincides with the loop itself. -/
def xor_chunks (N data key : Nat) (m : Mem) : Mem :=
  xor_chunks_intrinsic_baseline N data key m

/-- XOR cancellation at the byte level: XORing the same byte into two
values does not change their XOR. -/
theorem Nat.xor_xor_cancel (d k x : Nat) : (d ^^^ x) ^^^ (k ^^^ x) = d ^^^ k := by
  rw [Nat.xor_comm k x, ← Nat.xor_assoc, Nat.xor_assoc d x x, Nat.xor_self, Nat.xor_zero]

/-- Frame property of the byte loop: an address strictly below the data
region or at/above its end is never written. -/
theorem xor_chunks_frame_aux (N d k a : Nat) (m : Mem)
    (h : a < d ∨ d + N ≤ a) :
    xor_chunks_intrinsic_baseline N d k m a = m a := by
  induction N with
  | zero => rfl
  | succ n ih =>
    have hne : a ≠ d + n := by omega
    simp only [xor_chunks_intrinsic_baseline, if_neg hne]
    exact ih (by omega)

/-- Characterisation of the byte loop on the data region when the data
region and the key region are fully non-overlapping: byte `i` of the data
region becomes the XOR of the original data byte and the original key byte
at the same offset. -/
theorem xor_chunks_char (N d k : Nat) (m : Mem) :
    ∀ i : Nat, i < N → d + N ≤ k ∨ k + N ≤ d →
      xor_chunks_intrinsic_baseline N d k m (d + i) = m (d + i) ^^^ m (k + i) := by
  induction N with
  | zero => intro i hi _; omega
  | succ n ih =>
    intro i hi hdisj
    by_cases hin : i = n
    · subst hin
      simp only [xor_chunks_intrinsic_baseline, if_pos rfl]
      rw [xor_chunks_frame_aux i d k (d + i) m (by omega),
        xor_chunks_frame_aux i d k (k + i) m (by omega)]
      simp
    · have hne : d + i ≠ d + n := by omega
      simp only [xor_chunks_intrinsic_baseline, if_neg hne]
      exact ih i (by omega) (by omega)

/-- C1: for every pair of fully non-overlapping regions `d` (data) and `k`
(key) of size `N` (the size of the value type), applying the mask
primitive to `d` with key `k` and then applying it again with the same key
restores every byte of memory — in particular every byte of the data
region, padding positions included — to its original value. -/
theorem xor_chunks_roundtrip (N d k : Nat) (m : Mem)
    (hdisj : d + N ≤ k ∨ k + N ≤ d) :
    ∀ a : Nat, xor_chunks N d k (xor_chunks N d k m) a = m a := by
  intro a
  unfold xor_chunks
  by_cases hin : d ≤ a ∧ a < d + N
  · obtain ⟨h1, h2⟩ := hin
    have ha : a = d + (a - d) := by omega
    rw [ha]
    rw [xor_chunks_char N d k _ (a - d) (by omega) hdisj]
    rw [xor_chunks_char N d k m (a - d) (by omega) hdisj]
    rw [xor_chunks_frame_aux N d k (k + (a - d)) m (by omega)]
    rw [Nat.xor_assoc, Nat.xor_self, Nat.xor_zero]
  · rw [xor_chunks_frame_aux N d k a _ (by omega),
      xor_chunks_frame_aux N d k a m (by omega)]

/-- Concrete witness for the round-trip theorem. -/
def memA : Mem := fun a => (a * 3 + 1) % 256

/-- Witness for C1 at size 2, data region `[0, 2)`, key region `[2, 4)`. -/
theorem xor_chunks_roundtrip_witness :
    (0 + 2 ≤ 2 ∨ 2 + 2 ≤ 0) ∧
      xor_chunks 2 0 2 (xor_chunks 2 0 2 memA) 1 = memA 1 :=
  ⟨Or.inl (by decide), xor_chunks_roundtrip 2 0 2 memA (Or.inl (by decide)) 1⟩

/-- C2: invoking the mask primitive with the same base address passed as
both the data and the key argument zeroes the region: every one of the `N`
bytes of the region equals zero afterwards. -/
theorem xor_chunks_self_zero (N d : Nat) (m : Mem) :
    ∀ i : Nat, i < N → xor_chunks N d d m (d + i) = 0 := by
  unfold xor_chunks
  induction N with
  | zero => intro i hi; omega
  | succ n ih =>
    intro i hi
    by_cases hin : i = n
    · subst hin
      simp [xor_chunks_intrinsic_baseline, Nat.xor_self]
    · have hne : d + i ≠ d + n := by omega
      simp only [xor_chunks_intrinsic_baseline, if_neg hne]
      exact ih i (by omega)

/-- Witness for C2 at size 3, region based at address 5. -/
theorem xor_chunks_self_zero_witness :
    1 < 3 ∧ xor_chunks 3 5 5 memA (5 + 1) = 0 :=
  ⟨by decide, xor_chunks_self_zero 3 5 memA 1 (by decide)⟩

/-- C9: the mask primitive on distinct non-overlapping data and key
regions only modifies the `N` bytes of the data region: every byte of the
key region is unchanged afterwards, and no byte outside the data region is
written. -/
theorem xor_chunks_frame (N d k : Nat) (m : Mem)
    (hdisj : d + N ≤ k ∨ k + N ≤ d) :
    (∀ i : Nat, i < N → xor_chunks N d k m (k + i) = m (k + i)) ∧
      (∀ a : Nat, a < d ∨ d + N ≤ a → xor_chunks N d k m a = m a) := by
  constructor
  · intro i hi
    exact xor_chunks_frame_aux N d k (k + i) m (by omega)
  · intro a ha
    exact xor_chunks_frame_aux N d k a m ha

/-- Witness for C9 at size 2, data region `[10, 12)`, key region `[20, 22)`. -/
theorem xor_chunks_frame_witness :
    (10 + 2 ≤ 20 ∨ 20 + 2 ≤ 10) ∧
      (xor_chunks 2 10 20 memA (20 + 1) = memA (20 + 1) ∧
        xor_chunks 2 10 20 memA 9 = memA 9) :=
  ⟨Or.inl (by decide),
    (xor_chunks_frame 2 10 20 memA (Or.inl (by decide))).1 1 (by decide),
    (xor_chunks_frame 2 10 20 memA (Or.inl (by decide))).2 9 (Or.inl (by decide))⟩

/-- Observable events of the cell operations, used to state the lifecycle
claims: `alloc` is a heap allocation sized for the value type `T`,
`randCall` is one call into the random source (`getrandom::fill_uninit`),
`construct` is one run of the caller-supplied in-place constructor handed
to `insert_by_ptr`, and `destructorRun` is one run of `T`'s destructor
(`ptr::drop_in_place` on the contained value). -/
inductive Event where
  | alloc
  | randCall
  | construct
  | destructorRun
deriving DecidableEq, BEq, Repr

/-- Model of `MangledBoxArbitrary<T>` (src/src/arbitrary.rs): the owned
heap region `data` and the inline key buffer `key`, each holding the
`size_of::<T>()` meaningful bytes of the corresponding Rust buffer at
offsets `0, 1, ...`. -/
structure MangledBoxArbitrary where
  data : Mem
  key : Mem

/-- Exposed plaintext of a masked cell: the byte-wise XOR of the data
region and the key region.  This is exactly the view `with_unmangled`
reveals to its closure. -/
def MangledBoxArbitrary.plaintext (b : MangledBoxArbitrary) : Mem :=
  fun i => b.data i ^^^ b.key i

/-- Model of `MangledBoxArbitrary::new` (src/src/arbitrary.rs lines
47-58): allocate a zero-filled data region (one `alloc` event) and fill
the key buffer from the random source (one `randCall` event); `rk` is the
byte sequence the random source produces. -/
def MangledBoxArbitrary.new (rk : Mem) : MangledBoxArbitrary × List Event :=
  (⟨fun _ => 0, rk⟩, [Event.alloc, Event.randCall])

/-- Model of `MangledBoxArbitrary::rekey` (src/src/arbitrary.rs lines
61-75): draw a random difference `diff` (one `randCall` event) and XOR it
byte-wise into the data region and into the key region, via two
`xor_chunks` calls on non-overlapping regions (`diff` lives on the stack,
disjoint from both buffers, so by `xor_chunks_char` each call acts as the
byte-wise XOR written here). -/
def MangledBoxArbitrary.rekey (b : MangledBoxArbitrary) (diff : Mem) :
    MangledBoxArbitrary × List Event :=
  (⟨fun i => b.data i ^^^ diff i, fun i => b.key i ^^^ diff i⟩, [Event.randCall])

/-- Model of `MangledBoxArbitrary::with_unmangled` (src/src/arbitrary.rs
lines 88-138): XOR the key into the data region (revealing the plaintext
view), run the caller's closure `f` on it, and remask on scope exit by
XORing the key into whatever bytes `f` left behind.  The closure is
modelled as a function from the revealed bytes to its result, the bytes it
leaves in the region, and the events it performs; because the remask is
installed as a drop guard, it is applied to the closure's final bytes
unconditionally, with no inspection of the closure's result `r`. -/
def MangledBoxArbitrary.with_unmangled {R : Type} (b : MangledBoxArbitrary)
    (f : Mem → R × Mem × List Event) : R × MangledBoxArbitrary × List Event :=
  let res := f (fun i => b.data i ^^^ b.key i)
  (res.1, ⟨fun i => res.2.1 i ^^^ b.key i, b.key⟩, res.2.2)

/-- Model of `MangledBoxArbitrary::drop_in_place` (src/src/arbitrary.rs
lines 147-149): run the contained value's destructor in place through
`with_unmangled`.  The destructor leaves the unmasked region in an
unspecified state, modelled by the parameter `dtor`; exactly one
`destructorRun` event is performed. -/
def MangledBoxArbitrary.drop_in_place (b : MangledBoxArbitrary)
    (dtor : Mem → Mem) : MangledBoxArbitrary × List Event :=
  let r := b.with_unmangled (fun plain => ((), dtor plain, [Event.destructorRun]))
  (r.2.1, r.2.2)

/-- Model of the `Drop` implementation of `MangledBoxArbitrary`
(src/src/arbitrary.rs lines 158-173): XOR the data region with itself and
the key region with itself (two `xor_chunks` calls with the same pointer
in both arguments, written here as the byte-wise self-XOR those calls
perform).  No destructor is invoked and no external call is made. -/
def MangledBoxArbitrary.drop (b : MangledBoxArbitrary) :
    MangledBoxArbitrary × List Event :=
  (⟨fun i => b.data i ^^^ b.data i, fun i => b.key i ^^^ b.key i⟩, [])

/-- Model of `MangledBox<T: NoUninit>` (src/src/nouninit.rs): same shape
as `MangledBoxArbitrary` — a heap data region and an inline key buffer —
restricted in Rust to types with no padding and no destructor. -/
structure MangledBox where
  data : Mem
  key : Mem

/-- Exposed plaintext of a plain-data masked cell. -/
def MangledBox.plaintext (b : MangledBox) : Mem :=
  fun i => b.data i ^^^ b.key i

/-- Model of `MangledBox::new` (src/src/nouninit.rs lines 59-70). -/
def MangledBox.new (rk : Mem) : MangledBox × List Event :=
  (⟨fun _ => 0, rk⟩, [Event.alloc, Event.randCall])

/-- Model of `MangledBox::rekey` (src/src/nouninit.rs lines 73-83): XOR a
fresh random difference into both the data region and the key region. -/
def MangledBox.rekey (b : MangledBox) (diff : Mem) : MangledBox × List Event :=
  (⟨fun i => b.data i ^^^ diff i, fun i => b.key i ^^^ diff i⟩, [Event.randCall])

/-- Model of `MangledBox::with_unmangled` (src/src/nouninit.rs lines
88-144): unmask, run the closure, remask on scope exit via the
`RemangleGuard` drop guard, independently of the closure's outcome. -/
def MangledBox.with_unmangled {R : Type} (b : MangledBox)
    (f : Mem → R × Mem × List Event) : R × MangledBox × List Event :=
  let res := f (fun i => b.data i ^^^ b.key i)
  (res.1, ⟨fun i => res.2.1 i ^^^ b.key i, b.key⟩, res.2.2)

/-- Model of the `Drop` implementation of `MangledBox`
(src/src/nouninit.rs lines 147-164): self-XOR both buffers; no destructor
can exist for a `NoUninit` type and none is invoked. -/
def MangledBox.drop (b : MangledBox) : MangledBox × List Event :=
  (⟨fun i => b.data i ^^^ b.data i, fun i => b.key i ^^^ b.key i⟩, [])

/-- Outcome of a caller-supplied closure: either a normal return carrying
a value, or an unwinding panic carrying a payload identifier.  Used to
state the panic-safety claim about `with_unmangled`. -/
inductive Outcome (A : Type) where
  | ok (value : A)
  | panic (payload : Nat)
deriving DecidableEq, Repr

/-- Model of `MangledOption<T>` (src/src/option.rs): a tagged union of a
present masked cell and an absent state.  The `None` variant holds no
cell, mirroring that no heap allocation for `T` exists while absent. -/
inductive MangledOption where
  | Some (box : MangledBoxArbitrary)
  | None

/-- Presence of a contained plaintext: the masked cell's plaintext when
`Some`, nothing when `None`. -/
def MangledOption.plaintextOf : MangledOption → Option Mem
  | .Some b => Option.some b.plaintext
  | .None => Option.none

/-- Model of `MangledOption::new` (src/src/option.rs lines 19-21): the
body is literally `Self::None`; no allocation and no random-source call is
performed, hence the empty event trace. -/
def MangledOption.new : MangledOption × List Event :=
  (.None, [])

/-- Model of `MangledOption::take` (src/src/option.rs lines 44-46), which
is `std::mem::take(self)`: the whole option is moved out and returned, a
`None` is left in its place, and no destructor runs (the value, if any,
survives inside the returned option).  Result components: the returned
option, the new state of `self`, the events performed. -/
def MangledOption.take (o : MangledOption) :
    MangledOption × MangledOption × List Event :=
  (o, .None, [])

/-- Model of the `Drop` implementation of `MangledOption`
(src/src/option.rs lines 128-138): when `Some`, run
`MangledBoxArbitrary::drop_in_place` on the contained cell (one
`destructorRun`); then overwrite the tag with `None` via `ptr::write`.
When `None`, nothing happens.  Returns the events performed. -/
def MangledOption.drop (o : MangledOption) (dtor : Mem → Mem) : List Event :=
  match o with
  | .Some box => (box.drop_in_place dtor).2
  | .None => []

/-- Model of `MangledOption::clear` (src/src/option.rs lines 49-52):
`*self = Self::None` drops the previous contents through the `Drop`
implementation and leaves the `None` state. -/
def MangledOption.clear (o : MangledOption) (dtor : Mem → Mem) :
    MangledOption × List Event :=
  (.None, o.drop dtor)

/-- Model of `MangledOption::insert_by_ptr` (src/src/option.rs lines
68-72): create a fresh masked cell (`MangledBoxArbitrary::new` with fresh
randomness `rk`), run the caller's constructor `f` against its unmasked
view through `with_unmangled` (one `construct` event), and only then
assign `*self = Self::Some(new_content_box)`, which drops the previous
contents (running the old value's destructor if the option was `Some`).
The event trace records this order. -/
def MangledOption.insert_by_ptr (o : MangledOption) (rk : Mem)
    (f : Mem → Mem) (dtor : Mem → Mem) : MangledOption × List Event :=
  let fresh := MangledBoxArbitrary.new rk
  let r := fresh.1.with_unmangled (fun plain => ((), f plain, [Event.construct]))
  (.Some r.2.1, fresh.2 ++ r.2.2 ++ o.drop dtor)

/-- Model of `MangledOption::insert_unmasked_value` (src/src/option.rs
lines 59-61): `insert_by_ptr` with the constructor that writes the
already-constructed value bytes `v` into the region. -/
def MangledOption.insert_unmasked_value (o : MangledOption) (rk : Mem)
    (v : Mem) (dtor : Mem → Mem) : MangledOption × List Event :=
  o.insert_by_ptr rk (fun _ => v) dtor

/-- Model of `MangledOption::rekey` (src/src/option.rs lines 110-117):
forward to the contained cell when `Some`, do nothing when `None` (no
state change, no random-source call). -/
def MangledOption.rekey (o : MangledOption) (diff : Mem) :
    MangledOption × List Event :=
  match o with
  | .Some box =>
    let r := box.rekey diff
    (.Some r.1, r.2)
  | .None => (.None, [])

/-- Model of `MangledOption::map_mut_or_else` (src/src/option.rs lines
82-93): when `Some`, unmask through `with_unmangled` and run `f` on the
revealed bytes; when `None`, run the default closure without touching any
allocation or randomness. -/
def MangledOption.map_mut_or_else {R : Type} (o : MangledOption)
    (default : Unit → R) (f : Mem → R × Mem) : R × MangledOption × List Event :=
  match o with
  | .Some box =>
    let r := box.with_unmangled (fun plain =>
      let fr := f plain
      (fr.1, fr.2, []))
    (r.1, .Some r.2.1, r.2.2)
  | .None => (default (), .None, [])

/-- Helper: one rekey of the arbitrary-content cell preserves the
plaintext at every byte. -/
theorem MangledBoxArbitrary.rekey_plaintext (b : MangledBoxArbitrary)
    (diff : Mem) (i : Nat) : ((b.rekey diff).1).plaintext i = b.plaintext i := by
  simp [MangledBoxArbitrary.rekey, MangledBoxArbitrary.plaintext, Nat.xor_xor_cancel]

/-- Helper: one rekey of the plain-data cell preserves the plaintext at
every byte. -/
theorem MangledBox.rekey_keeps_plaintext (b : MangledBox)
    (diff : Mem) (i : Nat) : ((b.rekey diff).1).plaintext i = b.plaintext i := by
  simp [MangledBox.rekey, MangledBox.plaintext, Nat.xor_xor_cancel]

/-- C3: for both masked cells, rekeying with any random difference — any
number of times — leaves the hidden plaintext (data XOR key, every byte
including padding positions) unchanged; since the scoped access reveals
exactly this plaintext view to its closure, a subsequent scoped access
reveals the same value bytes as before. -/
theorem rekey_preserves_plaintext :
    (∀ (b : MangledBoxArbitrary) (diff : Mem) (i : Nat),
      ((b.rekey diff).1).plaintext i = b.plaintext i)
    ∧ (∀ (b : MangledBox) (diff : Mem) (i : Nat),
      ((b.rekey diff).1).plaintext i = b.plaintext i)
    ∧ (∀ (b : MangledBoxArbitrary) (diffs : List Mem) (i : Nat),
      (diffs.foldl (fun c d => (c.rekey d).1) b).plaintext i = b.plaintext i)
    ∧ (∀ (b : MangledBox) (diffs : List Mem) (i : Nat),
      (diffs.foldl (fun c d => (c.rekey d).1) b).plaintext i = b.plaintext i) := by
  refine ⟨MangledBoxArbitrary.rekey_plaintext, MangledBox.rekey_keeps_plaintext, ?_, ?_⟩
  · intro b diffs
    induction diffs generalizing b with
    | nil => intro i; rfl
    | cons d ds ih =>
      intro i
      simpa [MangledBoxArbitrary.rekey_plaintext] using
        (ih ((b.rekey d).1) i).trans (MangledBoxArbitrary.rekey_plaintext b d i)
  · intro b diffs
    induction diffs generalizing b with
    | nil => intro i; rfl
    | cons d ds ih =>
      intro i
      simpa [MangledBox.rekey_keeps_plaintext] using
        (ih ((b.rekey d).1) i).trans (MangledBox.rekey_keeps_plaintext b d i)

/-- C4: for both masked cells and every closure `f` handed to
`with_unmangled`: the closure's outcome — a normal return value or a
panic — is propagated unchanged to the caller; the cell is remasked
before control returns (the data region again equals the bytes the
closure left, XORed with the key, and the key is untouched); and the
resulting cell state is literally the state produced for a
normally-returning closure leaving the same bytes, because the scope-exit
guard applies the remask without inspecting the closure's outcome. -/
theorem with_unmangled_panic_safe (A : Type) (b : MangledBoxArbitrary)
    (b' : MangledBox) (f g : Mem → Outcome A × Mem × List Event) :
    ((b.with_unmangled f).1 = (f b.plaintext).1
      ∧ (∀ i, (b.with_unmangled f).2.1.data i = (f b.plaintext).2.1 i ^^^ b.key i)
      ∧ (b.with_unmangled f).2.1.key = b.key
      ∧ (b.with_unmangled f).2.1 =
          (b.with_unmangled (fun p => (Outcome.ok (), (f p).2.1, (f p).2.2))).2.1)
    ∧ ((b'.with_unmangled g).1 = (g b'.plaintext).1
      ∧ (∀ i, (b'.with_unmangled g).2.1.data i = (g b'.plaintext).2.1 i ^^^ b'.key i)
      ∧ (b'.with_unmangled g).2.1.key = b'.key
      ∧ (b'.with_unmangled g).2.1 =
          (b'.with_unmangled (fun p => (Outcome.ok (), (g p).2.1, (g p).2.2))).2.1) :=
  ⟨⟨rfl, fun _ => rfl, rfl, rfl⟩, ⟨rfl, fun _ => rfl, rfl, rfl⟩⟩

/-- C5: on teardown of either masked cell, the data region is XORed with
itself and the key region with itself, so afterwards both buffers are
all-zero at every byte; the teardown performs no run of the contained
value's destructor, which only ever happens through the explicit
`drop_in_place` operation (which performs it exactly once). -/
theorem drop_wipes_and_runs_no_destructor (b : MangledBoxArbitrary)
    (b' : MangledBox) (dtor : Mem → Mem) :
    (∀ i, (b.drop).1.data i = 0)
    ∧ (∀ i, (b.drop).1.key i = 0)
    ∧ (b.drop).2.count Event.destructorRun = 0
    ∧ (∀ i, (b'.drop).1.data i = 0)
    ∧ (∀ i, (b'.drop).1.key i = 0)
    ∧ (b'.drop).2.count Event.destructorRun = 0
    ∧ (b.drop_in_place dtor).2.count Event.destructorRun = 1 := by
  refine ⟨fun i => ?_, fun i => ?_, rfl, fun i => ?_, fun i => ?_, rfl, rfl⟩ <;>
    simp [MangledBoxArbitrary.drop, MangledBox.drop]

/-- C6: on a `Present` optional cell, `clear` runs the contained value's
destructor (exactly one `destructorRun`), discards the cell and leaves
the `Absent` state; `take` moves the whole cell out, returning a
`Present` optional hiding exactly the plaintext the original held, while
leaving `Absent` behind and running no destructor (the value lives on in
the returned cell). -/
theorem take_and_clear_behavior (box : MangledBoxArbitrary) (dtor : Mem → Mem) :
    ((MangledOption.Some box).take).1 = MangledOption.Some box
    ∧ ((MangledOption.Some box).take).2.1 = MangledOption.None
    ∧ ((MangledOption.Some box).take).2.2.count Event.destructorRun = 0
    ∧ MangledOption.plaintextOf ((MangledOption.Some box).take).1
        = Option.some box.plaintext
    ∧ ((MangledOption.Some box).clear dtor).1 = MangledOption.None
    ∧ ((MangledOption.Some box).clear dtor).2.count Event.destructorRun = 1 :=
  ⟨rfl, rfl, rfl, rfl, rfl, rfl⟩

/-- C7: for an optional cell into which a value was inserted, the
contained value's destructor runs exactly once over the whole history,
whether the cell is ended by `clear`, by `take` followed by destruction
of both the taken and the original option, by replacement via a further
insert (once for the replaced value during the insert, once for the new
value at owner teardown), or by the owner dropping the cell; and the
destructor never runs for an optional cell that stayed `None` from
creation to drop. -/
theorem destructor_exactly_once (rk rk2 : Mem) (f g : Mem → Mem)
    (dtor : Mem → Mem) :
    ((((MangledOption.new.1).insert_by_ptr rk f dtor).2 ++
        (((MangledOption.new.1).insert_by_ptr rk f dtor).1.clear dtor).2).count
      Event.destructorRun = 1)
    ∧ ((((MangledOption.new.1).insert_by_ptr rk f dtor).2 ++
        ((((MangledOption.new.1).insert_by_ptr rk f dtor).1.take).2.2 ++
          (MangledOption.drop
            ((((MangledOption.new.1).insert_by_ptr rk f dtor).1.take).1) dtor ++
            MangledOption.drop
              ((((MangledOption.new.1).insert_by_ptr rk f dtor).1.take).2.1)
              dtor))).count Event.destructorRun = 1)
    ∧ (((((MangledOption.new.1).insert_by_ptr rk f dtor).1.insert_by_ptr
          rk2 g dtor).2).count Event.destructorRun = 1)
    ∧ ((MangledOption.drop
          ((((MangledOption.new.1).insert_by_ptr rk f dtor).1.insert_by_ptr
            rk2 g dtor).1) dtor).count Event.destructorRun = 1)
    ∧ ((((MangledOption.new.1).insert_by_ptr rk f dtor).2 ++
        MangledOption.drop (((MangledOption.new.1).insert_by_ptr rk f dtor).1)
          dtor).count Event.destructorRun = 1)
    ∧ ((MangledOption.new.2 ++
        MangledOption.drop MangledOption.new.1 dtor).count
      Event.destructorRun = 0) :=
  ⟨rfl, rfl, rfl, rfl, rfl, rfl⟩

/-- C8: `MangledOption::new` returns the `Absent` state having performed
no allocation and no random-source call (empty event trace, and the
`None` variant holds no cell at all); every operation available in the
`Absent` state — `rekey`, `take`, `map_mut_or_else` — performs no
allocation and no random-source call; `rekey` on an `Absent` cell is a
complete no-op (state and events), while on a `Present` cell it is
forwarded verbatim to the contained cell. -/
theorem absent_state_behavior (diff : Mem) (b : MangledBoxArbitrary)
    (A : Type) (default : Unit → A) (f : Mem → A × Mem) :
    MangledOption.new = (MangledOption.None, [])
    ∧ MangledOption.plaintextOf MangledOption.new.1 = Option.none
    ∧ MangledOption.rekey MangledOption.None diff = (MangledOption.None, [])
    ∧ MangledOption.rekey (MangledOption.Some b) diff
        = (MangledOption.Some (b.rekey diff).1, (b.rekey diff).2)
    ∧ MangledOption.map_mut_or_else MangledOption.None default f
        = (default (), MangledOption.None, [])
    ∧ (MangledOption.None).take = (MangledOption.None, MangledOption.None, []) :=
  ⟨rfl, rfl, rfl, rfl, rfl, rfl⟩

/-- Helper: the cell produced by `insert_by_ptr` is `Present` and hides
exactly the bytes the constructor wrote (the constructor sees the fresh
cell's unmasked view, which is the fresh random key itself since the data
region starts zero-filled). -/
theorem MangledOption.insert_by_ptr_plaintext (o : MangledOption) (rk : Mem)
    (f : Mem → Mem) (dtor : Mem → Mem) :
    ∃ b1, (o.insert_by_ptr rk f dtor).1 = MangledOption.Some b1
      ∧ ∀ i, b1.plaintext i = f rk i := by
  refine ⟨⟨fun i => f (fun j => 0 ^^^ rk j) i ^^^ rk i, rk⟩, rfl, fun i => ?_⟩
  have hp : (fun j => 0 ^^^ rk j) = rk := funext fun j => Nat.zero_xor (rk j)
  simp only [MangledBoxArbitrary.plaintext, hp]
  rw [Nat.xor_assoc, Nat.xor_self, Nat.xor_zero]

/-- C10: `insert_by_ptr` first allocates and keys a fresh cell and runs
the caller's constructor into it, and only afterwards runs the destructor
of the previously contained value (the event trace on a `Present` cell is
allocation, random keying, construction, then destruction; on an `Absent`
cell the same without any destructor run); afterwards the cell is
`Present` hiding exactly the bytes the constructor wrote, and for
`insert_unmasked_value` exactly the bytes of the supplied value. -/
theorem insert_constructs_before_destroying (box : MangledBoxArbitrary)
    (rk : Mem) (f : Mem → Mem) (v : Mem) (dtor : Mem → Mem) :
    ((MangledOption.Some box).insert_by_ptr rk f dtor).2
        = [Event.alloc, Event.randCall, Event.construct, Event.destructorRun]
    ∧ (MangledOption.None.insert_by_ptr rk f dtor).2
        = [Event.alloc, Event.randCall, Event.construct]
    ∧ (∃ b1, ((MangledOption.Some box).insert_by_ptr rk f dtor).1
          = MangledOption.Some b1 ∧ ∀ i, b1.plaintext i = f rk i)
    ∧ (∃ b2, (MangledOption.None.insert_by_ptr rk f dtor).1
          = MangledOption.Some b2 ∧ ∀ i, b2.plaintext i = f rk i)
    ∧ (∃ b3, ((MangledOption.Some box).insert_unmasked_value rk v dtor).1
          = MangledOption.Some b3 ∧ ∀ i, b3.plaintext i = v i) :=
  ⟨rfl, rfl,
    MangledOption.insert_by_ptr_plaintext (MangledOption.Some box) rk f dtor,
    MangledOption.insert_by_ptr_plaintext MangledOption.None rk f dtor,
    MangledOption.insert_by_ptr_plaintext (MangledOption.Some box) rk
      (fun _ => v) dtor⟩
